import Mathlib

/-!
Shallow embedding of the incremental chart-synchronization core of the
`trade` dashboard (legacy inline script `src/unnamed/part_000`, modular
counterparts `src/API/dashboard/app_core.js` / `app_chart.js`).

Timestamps are modelled as `Int` (JS numbers used only through `>`/truthiness),
prices as `Option ℚ` where `none` stands for a non-finite value (`NaN`,
`±Infinity`, `null`/`undefined`): the code only inspects prices through
`Number.isFinite` filters, which `Option.filterMap id` mirrors exactly.
-/

namespace Trade

/-- One fetched candle row (`rows[i]` in `drawChart`): timestamp `ts` and the
OHLC(V) fields, each possibly non-finite. -/
structure Row where
  ts : Int
  op : Option ℚ
  hi : Option ℚ
  lo : Option ℚ
  cl : Option ℚ
  vol : Option ℚ
deriving DecidableEq

/-- The controller's module-level mutable sync variables `_lastTs` and
`_currentFile` (`part_000` lines 202-203, `app_chart.js` line 38); both start
as `null`, modelled as `none`. -/
structure SyncState where
  lastTs : Option Int
  currentFile : Option String
deriving DecidableEq

/-- The observable outcome of one `drawChart` call. -/
inductive DrawOutcome where
  | fetchError
  | emptyData
  | extended
  | rebuilt
  | renderError
deriving DecidableEq

/-- JS truthiness of the number `_lastTs` (null and 0 are falsy). -/
def jsTruthyTs : Option Int → Bool
  | none => false
  | some t => decide (t ≠ 0)

/-- `Array.prototype.findIndex`, with `-1` rendered as `none`
(`tsArr.findIndex(t => t > _lastTs)`, `part_000` line 257). -/
def findIdxJS {α : Type} (p : α → Bool) : List α → Option Nat
  | [] => none
  | a :: l => if p a then some 0 else (findIdxJS p l).map (· + 1)

/-- The `canExtend` condition of `drawChart` (`part_000` lines 249-254):
`!animate && gdInc && gdInc.data && gdInc.data.length > 0 &&
(_currentFile === fileNow) && _lastTs && tsArr.length &&
tsArr[tsArr.length-1] > _lastTs`.  The rendered chart is modelled by
`chart : Option (List Row)` holding the points of the main candlestick
trace (`none` = purged / placeholder, i.e. no Plotly traces). -/
def canExtend (animate : Bool) (chart : Option (List Row)) (st : SyncState)
    (fileNow : String) (tsArr : List Int) : Bool :=
  !animate && chart.isSome &&
  decide (st.currentFile = some fileNow) &&
  jsTruthyTs st.lastTs &&
  !tsArr.isEmpty &&
  (match tsArr.getLast?, st.lastTs with
   | some tl, some lt => decide (lt < tl)
   | _, _ => false)

/-- `Plotly.extendTraces(gd, {...}, [0], tailMax)`: append the new points to
the trace and truncate to the most recent `cap` points (oldest evicted). -/
def extendCap (old new : List Row) (cap : Nat) : List Row :=
  let combined := old ++ new
  combined.drop (combined.length - cap)

/-- The full-rebuild tail of `drawChart` (`part_000` lines 279-422): on
success replace the whole trace set with the fetched rows and set
`_currentFile = fileNow; _lastTs = rows[rows.length-1].ts`; a thrown render
error goes to the `catch` branch, which leaves the sync variables untouched
and renders the error placeholder. -/
def rebuildResult (rows : List Row) (fileNow : String) (renderOk : Bool)
    (st : SyncState) : SyncState × Option (List Row) × DrawOutcome :=
  if renderOk then
    (⟨(rows.map (·.ts)).getLast?, some fileNow⟩, some rows, .rebuilt)
  else (st, none, .renderError)

/-- One `drawChart(animate)` call (`part_000` lines 234-428).
`fetched = none` models `loadCandles()` throwing (non-ok response);
`renderOk = false` models the downstream Plotly call
(`extendTraces` / `react`) throwing, which lands in the `catch` branch
before any sync-variable assignment.  Returns the new sync state, the new
rendered chart (`none` = placeholder / empty state) and the outcome tag. -/
def drawChart (animate : Bool) (fetched : Option (List Row)) (fileNow : String)
    (tailMax : Nat) (renderOk : Bool) (st : SyncState)
    (chart : Option (List Row)) : SyncState × Option (List Row) × DrawOutcome :=
  match fetched with
  | none => (st, none, .fetchError)
  | some rows =>
    if rows.isEmpty then (st, none, .emptyData)
    else
      let tsArr := rows.map (·.ts)
      if canExtend animate chart st fileNow tsArr then
        match findIdxJS (fun t => decide (st.lastTs.getD 0 < t)) tsArr with
        | some idx =>
          if renderOk then
            ({ st with lastTs := tsArr.getLast? },
             some (extendCap (chart.getD []) (rows.drop idx) tailMax),
             .extended)
          else (st, none, .renderError)
        | none => rebuildResult rows fileNow renderOk st
      else rebuildResult rows fileNow renderOk st

/-- `util.bindChip`'s click handler in the modular core (`app_core.js`
lines 292-309, `part_001` lines 110-126): it assigns
`window.App.chart._currentFile = null; window.App.chart._lastTs = null`
before redrawing.  Against both chart-module exposures in the repository
this assignment never reaches the closure variables read by `canExtend`:
`part_000` lines 1455-1456 export `_currentFile`/`_lastTs` as getter-only
accessor properties, and the scripts run in sloppy mode (no `use strict`
anywhere), so the write is a silent no-op; `app_chart.js` lines 331-335
export no `_currentFile` property at all, so the
`_currentFile !== undefined` guard skips the reset body.  The sync state
is therefore left unchanged. -/
def bindChipCoreClick (st : SyncState) : SyncState :=
  st

/-- The hidden-checkbox `change` handler of `initCore` (`app_core.js`
lines 321-328): the same assignment to
`window.App.chart._currentFile`/`._lastTs` as in `bindChipCoreClick`,
and a silent no-op against both chart-module exposures for the same
reason, so the sync state is left unchanged. -/
def checkboxChangeCore (st : SyncState) : SyncState :=
  st

/-- The legacy `bindChip` click handler (`part_000` lines 105-111): it toggles
the checkbox and calls `drawChart(false)` without touching `_lastTs` or
`_currentFile`. -/
def bindChipLegacyClick (st : SyncState) : SyncState :=
  st

-- ===== Indicator Calculator (part_000 lines 120-135, app_core.js 331-346) =====

/-- `out[i] = avgLoss===0 ? 100 : 100-100/(1+(avgGain/avgLoss))` of `rsi`. -/
def rsiVal (g l : ℚ) : ℚ :=
  if l = 0 then 100 else 100 - 100 / (1 + g / l)

/-- The smoothing loop of `rsi` (`for(let i=period+1;i<n;i++){...}`): one
output per remaining delta, carrying the running `avgGain` / `avgLoss`. -/
def rsiRest (period : Nat) : ℚ → ℚ → List ℚ → List (Option ℚ)
  | _, _, [] => []
  | g, l, ch :: rest =>
    some (rsiVal ((g * ((period : ℚ) - 1) + max ch 0) / (period : ℚ))
        ((l * ((period : ℚ) - 1) + max (-ch) 0) / (period : ℚ))) ::
      rsiRest period ((g * ((period : ℚ) - 1) + max ch 0) / (period : ℚ))
        ((l * ((period : ℚ) - 1) + max (-ch) 0) / (period : ℚ)) rest

/-- Successive differences `prices[i]-prices[i-1]`, i = 1..n-1. -/
def deltas : List ℚ → List ℚ
  | [] => []
  | [_] => []
  | a :: b :: rest => (b - a) :: deltas (b :: rest)

/-- `rsi(prices, period)` (`part_000` lines 120-129): all-null when fewer
than `period+1` prices; otherwise `out[period]` is seeded from the first
`period` deltas and later entries follow the Wilder smoothing recurrence.
Finite JS numbers are modelled as `ℚ`. -/
def rsi (prices : List ℚ) (period : Nat) : List (Option ℚ) :=
  if prices.length < period + 1 then List.replicate prices.length none
  else
    List.replicate period none ++
      some (rsiVal
          (((((deltas prices).take period).map (fun ch => max ch 0)).sum) /
            (period : ℚ))
          ((((deltas prices).take period).map (fun ch => max (-ch) 0)).sum /
            (period : ℚ))) ::
        rsiRest period
          ((((deltas prices).take period).map (fun ch => max ch 0)).sum /
            (period : ℚ))
          ((((deltas prices).take period).map (fun ch => max (-ch) 0)).sum /
            (period : ℚ))
          ((deltas prices).drop period)

/-- The loop body of `sma` (`part_000` lines 130-135): running sum with
trailing subtraction, walking the remaining values while `i` indexes the
original list.  For finite inputs (modelled as `ℚ`) the `isNaN` guards of
the source never fire, so add/subtract happen unconditionally. -/
def smaGo (all : List ℚ) (period : Nat) : Nat → ℚ → List ℚ → List (Option ℚ)
  | _, _, [] => []
  | i, s, v :: rest =>
    (if period - 1 ≤ i
      then some ((if period ≤ i then s + v - all.getD (i - period) 0
                  else s + v) / (period : ℚ))
      else none) ::
      smaGo all period (i + 1)
        (if period ≤ i then s + v - all.getD (i - period) 0 else s + v) rest

/-- `sma(values, period)`: the input unchanged (`values.slice()`) for
`period <= 1`, otherwise the running-sum loop from index 0. -/
def sma (values : List ℚ) (period : Nat) : List (Option ℚ) :=
  if period ≤ 1 then values.map some else smaGo values period 0 0 values

/-- Modelled from the spec: the naive O(n·period) reference recomputation —
at each index `i ≥ period−1` the exact arithmetic mean of the `period` most
recent values, undefined before. -/
def smaRef (values : List ℚ) (period : Nat) : List (Option ℚ) :=
  if period ≤ 1 then values.map some
  else (List.range values.length).map (fun i =>
    if period - 1 ≤ i
    then some (((values.drop (i + 1 - period)).take period).sum / (period : ℚ))
    else none)

-- ===== Render Compositor (part_000 lines 296-309) =====

/-- `Math.min(...arr)` with the empty case (`Infinity`, i.e. non-finite)
rendered as `none`. -/
def jsMin : List ℚ → Option ℚ
  | [] => none
  | x :: r => some (r.foldl min x)

/-- `Math.max(...arr)` with the empty case rendered as `none`. -/
def jsMax : List ℚ → Option ℚ
  | [] => none
  | x :: r => some (r.foldl max x)

/-- The primary price-axis range of `drawChart` (`part_000` lines 296-309):
min/max over the finite lows/highs (fallback `(0, 1)` when either side has
no finite value), then under log scale the floor is clamped to 95% of the
minimum strictly-positive OHLC value (fallback `1e-6`) and the range is
`[pMin*0.98, pMax*1.02]`; under linear scale a 4% pad (with fallbacks) is
applied. -/
def yPriceRange (opL hiL loL clL : List (Option ℚ)) (isLog : Bool) : ℚ × ℚ :=
  let lows := loL.filterMap id
  let highs := hiL.filterMap id
  let mm : ℚ × ℚ :=
    match jsMin lows, jsMax highs with
    | some a, some b => (a, b)
    | _, _ => (0, 1)
  if isLog then
    let positives :=
      ((opL ++ hiL ++ loL ++ clL).filterMap id).filter (fun v => decide (0 < v))
    let minPos :=
      match jsMin positives with
      | some m => m
      | none => 1 / 1000000
    (max mm.1 (minPos * (95 / 100)) * (98 / 100), mm.2 * (102 / 100))
  else
    let pad1 := (mm.2 - mm.1) * (4 / 100)
    let pad :=
      if pad1 ≠ 0 then pad1
      else if mm.1 * (4 / 100) ≠ 0 then mm.1 * (4 / 100) else 1
    (mm.1 - pad, mm.2 + pad)

/-- A concrete candle row used in witnesses. -/
def sampleRow (t : Int) : Row :=
  ⟨t, some 10, some 11, some 9, some 10, some 1⟩

/-- A concrete fetched window with timestamps 1,2,3,4 (the spec's extend
scenario). -/
def sampleRows4 : List Row :=
  [sampleRow 1, sampleRow 2, sampleRow 3, sampleRow 4]

-- ===== helper lemmas =====

theorem findIdxJS_isSome_of_mem {α : Type} {p : α → Bool} {l : List α} {a : α}
    (ha : a ∈ l) (hp : p a = true) : (findIdxJS p l).isSome = true := by
  induction l with
  | nil => cases ha
  | cons b t ih =>
    rcases List.mem_cons.mp ha with rfl | hmem
    · simp [findIdxJS, hp]
    · by_cases hb : p b
      · simp [findIdxJS, hb]
      · simpa [findIdxJS, hb, Option.isSome_map] using ih hmem

theorem mem_of_getLast? {α : Type} {l : List α} {a : α}
    (h : l.getLast? = some a) : a ∈ l := by
  induction l with
  | nil => simp [List.getLast?] at h
  | cons b t ih =>
    cases t with
    | nil => simp_all [List.getLast?]
    | cons c u =>
      rw [List.getLast?_cons_cons] at h
      exact List.mem_cons_of_mem _ (ih h)

/-- `canExtend` unfolded into the four spec preconditions. -/
theorem canExtend_iff (animate : Bool) (chart : Option (List Row))
    (st : SyncState) (fileNow : String) (tsArr : List Int) :
    canExtend animate chart st fileNow tsArr = true ↔
      (animate = false ∧ chart.isSome = true ∧ st.currentFile = some fileNow ∧
       ∃ lt tl, st.lastTs = some lt ∧ lt ≠ 0 ∧ tsArr.getLast? = some tl ∧ lt < tl) := by
  constructor
  · intro h
    simp only [canExtend, Bool.and_eq_true, Bool.not_eq_true'] at h
    obtain ⟨⟨⟨⟨⟨ha, hc⟩, hf⟩, hl⟩, hne⟩, hcmp⟩ := h
    refine ⟨ha, hc, by simpa using hf, ?_⟩
    cases hlast : tsArr.getLast? with
    | none => rw [hlast] at hcmp; cases hst : st.lastTs <;> simp [hst] at hcmp
    | some tl =>
      cases hst : st.lastTs with
      | none => simp [jsTruthyTs, hst] at hl
      | some lt =>
        rw [hlast, hst] at hcmp
        simp only [decide_eq_true_eq] at hcmp
        refine ⟨lt, tl, rfl, ?_, rfl, hcmp⟩
        simpa [jsTruthyTs, hst] using hl
  · rintro ⟨ha, hc, hf, lt, tl, hst, hlt0, hlast, hcmp⟩
    simp only [canExtend, Bool.and_eq_true, Bool.not_eq_true']
    refine ⟨⟨⟨⟨⟨ha, hc⟩, by simpa using hf⟩, by simp [jsTruthyTs, hst, hlt0]⟩, ?_⟩, ?_⟩
    · rcases tsArr with _ | ⟨x, xs⟩
      · simp [List.getLast?] at hlast
      · simp
    · rw [hlast, hst]; simpa using hcmp

theorem findIdxJS_map {α β : Type} (f : α → β) (p : β → Bool) (l : List α) :
    findIdxJS p (l.map f) = findIdxJS (fun a => p (f a)) l := by
  induction l with
  | nil => rfl
  | cons a t ih => by_cases h : p (f a) <;> simp [findIdxJS, h, ih]

theorem isEmpty_false_of_ne_nil {α : Type} {l : List α} (h : l ≠ []) :
    l.isEmpty = false := by
  cases l with
  | nil => exact absurd rfl h
  | cons a t => rfl

/-- Under the extend preconditions, the `findIndex` search succeeds and
`drawChart` lands in the append branch. -/
theorem drawChart_extend_eq (animate : Bool) (rows : List Row) (fileNow : String)
    (tailMax : Nat) (st : SyncState) (chart : Option (List Row))
    (hrows : rows ≠ [])
    (hce : canExtend animate chart st fileNow (rows.map (·.ts)) = true) :
    ∃ idx, findIdxJS (fun t => decide (st.lastTs.getD 0 < t)) (rows.map (·.ts)) = some idx ∧
      drawChart animate (some rows) fileNow tailMax true st chart =
        ({ st with lastTs := (rows.map (·.ts)).getLast? },
         some (extendCap (chart.getD []) (rows.drop idx) tailMax),
         .extended) := by
  obtain ⟨-, -, -, lt, tl, hst, -, hlast, hcmp⟩ := (canExtend_iff _ _ _ _ _).mp hce
  have hmem : tl ∈ rows.map (·.ts) := mem_of_getLast? hlast
  have hp : decide (st.lastTs.getD 0 < tl) = true := by
    simp [hst, hcmp]
  have hsome := @findIdxJS_isSome_of_mem Int
    (fun t => decide (st.lastTs.getD 0 < t)) (rows.map (·.ts)) tl hmem hp
  obtain ⟨idx, hidx⟩ := Option.isSome_iff_exists.mp hsome
  refine ⟨idx, hidx, ?_⟩
  simp [drawChart, isEmpty_false_of_ne_nil hrows, hce, hidx]

/-- When the extend preconditions fail, `drawChart` falls into the
full-rebuild tail. -/
theorem drawChart_noExtend_eq (animate : Bool) (rows : List Row) (fileNow : String)
    (tailMax : Nat) (renderOk : Bool) (st : SyncState) (chart : Option (List Row))
    (hrows : rows ≠ [])
    (hce : canExtend animate chart st fileNow (rows.map (·.ts)) = false) :
    drawChart animate (some rows) fileNow tailMax renderOk st chart =
      rebuildResult rows fileNow renderOk st := by
  simp [drawChart, isEmpty_false_of_ne_nil hrows, hce]

/-- C1: the incremental sync controller takes the extend (append-in-place)
path on a draw call iff all four preconditions hold — no forced/animated
redraw, a rendered chart with at least one trace, matching source identity,
and a set (truthy) `lastSeenTs` strictly below the maximum (last) fetched
timestamp; and whenever the fetched source identity differs from the stored
one, the call performs a full rebuild regardless of timestamps. -/
theorem drawChart_extended_iff (animate : Bool) (rows : List Row)
    (fileNow : String) (tailMax : Nat) (st : SyncState)
    (chart : Option (List Row)) (hrows : rows ≠ []) :
    ((drawChart animate (some rows) fileNow tailMax true st chart).2.2 =
        .extended ↔
      (animate = false ∧ chart.isSome = true ∧ st.currentFile = some fileNow ∧
       ∃ lt tl, st.lastTs = some lt ∧ lt ≠ 0 ∧
         (rows.map (·.ts)).getLast? = some tl ∧ lt < tl))
    ∧ (st.currentFile ≠ some fileNow →
        (drawChart animate (some rows) fileNow tailMax true st chart).2.2 =
          .rebuilt) := by
  by_cases hce : canExtend animate chart st fileNow (rows.map (·.ts)) = true
  · obtain ⟨idx, -, heq⟩ := drawChart_extend_eq animate rows fileNow tailMax st chart hrows hce
    have hconds := (canExtend_iff _ _ _ _ _).mp hce
    constructor
    · rw [heq]
      exact ⟨fun _ => hconds, fun _ => rfl⟩
    · intro hne
      exact absurd hconds.2.2.1 hne
  · have hce' : canExtend animate chart st fileNow (rows.map (·.ts)) = false :=
      Bool.not_eq_true _ ▸ Bool.of_not_eq_true hce
    rw [drawChart_noExtend_eq animate rows fileNow tailMax true st chart hrows hce']
    constructor
    · simp only [rebuildResult, if_pos rfl]
      constructor
      · intro h; cases h
      · intro hconds
        exact absurd ((canExtend_iff _ _ _ _ _).mpr hconds) (by simp [hce'])
    · intro _
      simp [rebuildResult]

/-- Witness for C1 at a concrete input: source unchanged, lastSeenTs = 2,
fetched timestamps reach 4, so the call is classified as EXTEND. -/
theorem drawChart_extended_iff_witness :
    (sampleRows4 ≠ []) ∧
    (((drawChart false (some sampleRows4) "a.csv" 500 true
        ⟨some 2, some "a.csv"⟩ (some [sampleRow 1, sampleRow 2])).2.2 =
        .extended ↔
      (false = false ∧ (some [sampleRow 1, sampleRow 2]).isSome = true ∧
       (⟨some 2, some "a.csv"⟩ : SyncState).currentFile = some "a.csv" ∧
       ∃ lt tl, (⟨some 2, some "a.csv"⟩ : SyncState).lastTs = some lt ∧ lt ≠ 0 ∧
         (sampleRows4.map (·.ts)).getLast? = some tl ∧ lt < tl))
    ∧ ((⟨some 2, some "a.csv"⟩ : SyncState).currentFile ≠ some "a.csv" →
        (drawChart false (some sampleRows4) "a.csv" 500 true
          ⟨some 2, some "a.csv"⟩ (some [sampleRow 1, sampleRow 2])).2.2 =
          .rebuilt)) :=
  ⟨by decide,
   drawChart_extended_iff false sampleRows4 "a.csv" 500
     ⟨some 2, some "a.csv"⟩ (some [sampleRow 1, sampleRow 2]) (by decide)⟩

/-- C10: whenever the extend preconditions hold, the `findIndex` search for
the first timestamp beyond `lastSeenTs` succeeds (the last element witnesses
it), so the append inside the extend branch is always performed and the
silent fall-through to the full-rebuild code is unreachable. -/
theorem findIdx_total_in_extend (animate : Bool) (rows : List Row)
    (fileNow : String) (tailMax : Nat) (st : SyncState)
    (chart : Option (List Row)) (hrows : rows ≠ [])
    (hce : canExtend animate chart st fileNow (rows.map (·.ts)) = true) :
    (findIdxJS (fun t => decide (st.lastTs.getD 0 < t))
        (rows.map (·.ts))).isSome = true ∧
    (drawChart animate (some rows) fileNow tailMax true st chart).2.2 =
      .extended := by
  obtain ⟨idx, hidx, heq⟩ := drawChart_extend_eq animate rows fileNow tailMax st chart hrows hce
  exact ⟨by simp [hidx], by rw [heq]⟩

/-- Witness for C10 at a concrete input. -/
theorem findIdx_total_in_extend_witness :
    ((sampleRows4 ≠ []) ∧
      canExtend false (some [sampleRow 1, sampleRow 2])
        ⟨some 2, some "a.csv"⟩ "a.csv" (sampleRows4.map (·.ts)) = true) ∧
    ((findIdxJS
        (fun t => decide ((⟨some 2, some "a.csv"⟩ : SyncState).lastTs.getD 0 < t))
        (sampleRows4.map (·.ts))).isSome = true ∧
    (drawChart false (some sampleRows4) "a.csv" 500 true
        ⟨some 2, some "a.csv"⟩ (some [sampleRow 1, sampleRow 2])).2.2 =
      .extended) :=
  ⟨⟨by decide, by decide⟩,
   findIdx_total_in_extend false sampleRows4 "a.csv" 500
     ⟨some 2, some "a.csv"⟩ (some [sampleRow 1, sampleRow 2])
     (by decide) (by decide)⟩

/-- Dropping everything before the first index accepted by `findIndex`
yields exactly the accepted suffix, provided acceptance is upward-closed
along the list order. -/
theorem drop_findIdxJS_eq_filter {α : Type} (p : α → Bool) :
    ∀ l : List α, List.Pairwise (fun a b => p a = true → p b = true) l →
      ∀ idx, findIdxJS p l = some idx → l.drop idx = l.filter p := by
  intro l
  induction l with
  | nil => intro _ idx h; cases h
  | cons a t ih =>
    intro hpw idx hidx
    by_cases ha : p a = true
    · have hidx0 : idx = 0 := by
        simp [findIdxJS, ha] at hidx
        omega
      subst hidx0
      have hall : ∀ b ∈ t, p b = true := fun b hb =>
        (List.pairwise_cons.mp hpw).1 b hb ha
      rw [List.drop_zero, List.filter_cons_of_pos ha,
        (List.filter_eq_self).mpr hall]
    · have ha' : p a = false := by simpa using ha
      simp only [findIdxJS, ha', Bool.false_eq_true, if_false] at hidx
      obtain ⟨j, hj, rfl⟩ := Option.map_eq_some'.mp hidx
      rw [List.drop_succ_cons, List.filter_cons_of_neg (by simp [ha']),
        ih (List.pairwise_cons.mp hpw).2 j hj]

theorem le_getLast_of_sorted :
    ∀ l : List Int, List.Pairwise (· < ·) l →
      ∀ tl, l.getLast? = some tl → ∀ t ∈ l, t ≤ tl := by
  intro l
  induction l with
  | nil => intro _ tl h; cases h
  | cons a t ih =>
    intro hpw tl hlast x hx
    cases t with
    | nil =>
      simp [List.getLast?] at hlast
      rcases List.mem_singleton.mp hx with rfl
      exact le_of_eq hlast
    | cons b u =>
      rw [List.getLast?_cons_cons] at hlast
      have htl : tl ∈ b :: u := mem_of_getLast? hlast
      rcases List.mem_cons.mp hx with rfl | hx'
      · exact le_of_lt ((List.pairwise_cons.mp hpw).1 tl htl)
      · exact ih (List.pairwise_cons.mp hpw).2 tl hlast x hx'

/-- C2: on the extend path the controller appends exactly the rows whose
timestamp strictly exceeds `lastSeenTs` (the suffix from the first such
index, which for strictly increasing timestamps is the filter), caps the
retained points at `tailMax` evicting oldest first, advances `lastSeenTs`
to the new maximum (last) timestamp, and leaves the stored source identity
unchanged; the resulting visible point count is
`min (priorCount + newRows) tailMax`. -/
theorem drawChart_extend_semantics (rows oldPts : List Row) (fileNow : String)
    (tailMax : Nat) (st : SyncState) (lt tl : Int)
    (hsorted : List.Pairwise (fun a b : Row => a.ts < b.ts) rows)
    (hst : st.lastTs = some lt) (hlt0 : lt ≠ 0)
    (hfile : st.currentFile = some fileNow)
    (hlast : (rows.map (·.ts)).getLast? = some tl) (hnew : lt < tl) :
    ((drawChart false (some rows) fileNow tailMax true st (some oldPts)).2.2 =
       .extended) ∧
    ((drawChart false (some rows) fileNow tailMax true st (some oldPts)).2.1 =
       some ((oldPts ++ rows.filter (fun r => decide (lt < r.ts))).drop
         (oldPts.length + (rows.filter (fun r => decide (lt < r.ts))).length -
           tailMax))) ∧
    (((drawChart false (some rows) fileNow tailMax true st
        (some oldPts)).2.1.getD []).length =
       min (oldPts.length + (rows.filter (fun r => decide (lt < r.ts))).length)
         tailMax) ∧
    ((drawChart false (some rows) fileNow tailMax true st (some oldPts)).1.lastTs =
       some tl) ∧
    ((drawChart false (some rows) fileNow tailMax true st
        (some oldPts)).1.currentFile = st.currentFile) ∧
    (∀ r ∈ rows, r.ts ≤ tl) := by
  have hrows : rows ≠ [] := by
    intro h; subst h; simp [List.getLast?] at hlast
  have hce : canExtend false (some oldPts) st fileNow (rows.map (·.ts)) = true :=
    (canExtend_iff _ _ _ _ _).mpr
      ⟨rfl, rfl, hfile, lt, tl, hst, hlt0, hlast, hnew⟩
  obtain ⟨idx, hidx, heq⟩ :=
    drawChart_extend_eq false rows fileNow tailMax st (some oldPts) hrows hce
  have hidx' : findIdxJS (fun r : Row => decide (st.lastTs.getD 0 < r.ts)) rows =
      some idx := by
    rw [← findIdxJS_map (·.ts) (fun t => decide (st.lastTs.getD 0 < t)) rows]
    exact hidx
  have hpw : List.Pairwise
      (fun a b : Row => decide (st.lastTs.getD 0 < a.ts) = true →
        decide (st.lastTs.getD 0 < b.ts) = true) rows := by
    refine hsorted.imp ?_
    intro a b hab hlt
    simp only [decide_eq_true_eq] at hlt ⊢
    exact hlt.trans hab
  have hdrop : rows.drop idx =
      rows.filter (fun r : Row => decide (st.lastTs.getD 0 < r.ts)) :=
    drop_findIdxJS_eq_filter _ rows hpw idx hidx'
  have hfilter : rows.filter (fun r : Row => decide (st.lastTs.getD 0 < r.ts)) =
      rows.filter (fun r : Row => decide (lt < r.ts)) := by
    rw [hst]; rfl
  rw [hdrop, hfilter] at heq
  have hmax : ∀ r ∈ rows, r.ts ≤ tl := by
    intro r hr
    have : List.Pairwise (· < ·) (rows.map (·.ts)) :=
      (List.pairwise_map).mpr hsorted
    exact le_getLast_of_sorted _ this tl hlast r.ts (List.mem_map_of_mem _ hr)
  refine ⟨by rw [heq], by rw [heq]; simp [extendCap], ?_, ?_, by rw [heq], hmax⟩
  · rw [heq]
    simp only [Option.getD_some, extendCap, List.length_drop, List.length_append]
    omega
  · rw [heq]
    simpa using hlast

/-- Witness for C2: the spec scenario lastSeenTs = 2, fetched timestamps
[1,2,3,4] — exactly the rows with t ∈ {3,4} are appended. -/
theorem drawChart_extend_semantics_witness :
    (List.Pairwise (fun a b : Row => a.ts < b.ts) sampleRows4 ∧
      (⟨some 2, some "a.csv"⟩ : SyncState).lastTs = some 2 ∧ (2 : Int) ≠ 0 ∧
      (⟨some 2, some "a.csv"⟩ : SyncState).currentFile = some "a.csv" ∧
      (sampleRows4.map (·.ts)).getLast? = some 4 ∧ (2 : Int) < 4 ∧
      sampleRows4.filter (fun r => decide ((2 : Int) < r.ts)) =
        [sampleRow 3, sampleRow 4]) ∧
    (((drawChart false (some sampleRows4) "a.csv" 500 true
        ⟨some 2, some "a.csv"⟩ (some [sampleRow 1, sampleRow 2])).2.2 =
       .extended) ∧
    ((drawChart false (some sampleRows4) "a.csv" 500 true
        ⟨some 2, some "a.csv"⟩ (some [sampleRow 1, sampleRow 2])).2.1 =
       some (([sampleRow 1, sampleRow 2] ++
           sampleRows4.filter (fun r => decide ((2 : Int) < r.ts))).drop
         ([sampleRow 1, sampleRow 2].length +
             (sampleRows4.filter (fun r => decide ((2 : Int) < r.ts))).length -
           500))) ∧
    (((drawChart false (some sampleRows4) "a.csv" 500 true
        ⟨some 2, some "a.csv"⟩
        (some [sampleRow 1, sampleRow 2])).2.1.getD []).length =
       min ([sampleRow 1, sampleRow 2].length +
           (sampleRows4.filter (fun r => decide ((2 : Int) < r.ts))).length)
         500) ∧
    ((drawChart false (some sampleRows4) "a.csv" 500 true
        ⟨some 2, some "a.csv"⟩ (some [sampleRow 1, sampleRow 2])).1.lastTs =
       some 4) ∧
    ((drawChart false (some sampleRows4) "a.csv" 500 true
        ⟨some 2, some "a.csv"⟩
        (some [sampleRow 1, sampleRow 2])).1.currentFile =
       (⟨some 2, some "a.csv"⟩ : SyncState).currentFile) ∧
    (∀ r ∈ sampleRows4, r.ts ≤ 4)) :=
  ⟨⟨by decide, by decide, by decide, by decide, by decide, by decide, by decide⟩,
   drawChart_extend_semantics sampleRows4 [sampleRow 1, sampleRow 2] "a.csv" 500
     ⟨some 2, some "a.csv"⟩ 2 4 (by decide) (by decide) (by decide) (by decide)
     (by decide) (by decide)⟩

/-- C3 counterexample: a non-animated poll on an unchanged source whose
fetched rows contain no timestamp beyond the stored `lastSeenTs` does NOT
leave the rendered traces untouched — `canExtend` is false (the new maximum
does not exceed `lastSeenTs`) and the code falls into the full-rebuild
branch, replacing the trace set. -/
theorem stale_poll_noop_cex :
    (drawChart false (some [sampleRow 4, sampleRow 5]) "a.csv" 500 true
        ⟨some 5, some "a.csv"⟩ (some [sampleRow 1])).2.2 =
      DrawOutcome.rebuilt ∧
    (drawChart false (some [sampleRow 4, sampleRow 5]) "a.csv" 500 true
        ⟨some 5, some "a.csv"⟩ (some [sampleRow 1])).2.1 ≠
      some [sampleRow 1] := by
  decide

/-- C3 amended: a non-animated poll on an unchanged source with no
timestamp strictly exceeding the stored `lastSeenTs` performs a full
rebuild (there is no distinct no-op branch): the whole trace set is
replaced by the freshly fetched window. -/
theorem stale_poll_rebuilds (rows : List Row) (fileNow : String)
    (tailMax : Nat) (st : SyncState) (chart : Option (List Row)) (lt : Int)
    (hrows : rows ≠ []) (hst : st.lastTs = some lt)
    (hstale : ∀ r ∈ rows, r.ts ≤ lt) :
    (drawChart false (some rows) fileNow tailMax true st chart).2.2 =
      DrawOutcome.rebuilt ∧
    (drawChart false (some rows) fileNow tailMax true st chart).2.1 =
      some rows := by
  have hce : canExtend false chart st fileNow (rows.map (·.ts)) = false := by
    cases h : canExtend false chart st fileNow (rows.map (·.ts)) with
    | false => rfl
    | true =>
      obtain ⟨-, -, -, lt', tl, hst', -, hlast, hcmp⟩ :=
        (canExtend_iff _ _ _ _ _).mp h
      rw [hst] at hst'
      obtain rfl : lt = lt' := by injection hst'
      have : tl ∈ rows.map (·.ts) := mem_of_getLast? hlast
      obtain ⟨r, hr, rfl⟩ := List.mem_map.mp this
      exact absurd hcmp (not_lt.mpr (hstale r hr))
  rw [drawChart_noExtend_eq false rows fileNow tailMax true st chart hrows hce]
  simp [rebuildResult]

/-- Witness for the amended C3 at a concrete input. -/
theorem stale_poll_rebuilds_witness :
    (([sampleRow 4, sampleRow 5] : List Row) ≠ [] ∧
      (⟨some 5, some "a.csv"⟩ : SyncState).lastTs = some 5 ∧
      ∀ r ∈ ([sampleRow 4, sampleRow 5] : List Row), r.ts ≤ 5) ∧
    ((drawChart false (some [sampleRow 4, sampleRow 5]) "a.csv" 500 true
        ⟨some 5, some "a.csv"⟩ (some [sampleRow 1])).2.2 =
      DrawOutcome.rebuilt ∧
    (drawChart false (some [sampleRow 4, sampleRow 5]) "a.csv" 500 true
        ⟨some 5, some "a.csv"⟩ (some [sampleRow 1])).2.1 =
      some [sampleRow 4, sampleRow 5]) :=
  ⟨⟨by decide, by decide, by decide⟩,
   stale_poll_rebuilds [sampleRow 4, sampleRow 5] "a.csv" 500
     ⟨some 5, some "a.csv"⟩ (some [sampleRow 1]) 5
     (by decide) (by decide) (by decide)⟩

/-- C4: whenever the fetch fails, returns zero rows, or the downstream
render call throws, `drawChart` replaces the chart with the explicit
placeholder/empty state (never leaves the previous chart visible) and
leaves the sync variables `lastSeenTs` / stored source identity exactly as
they were before the call. -/
theorem drawChart_failure_preserves_state (animate : Bool)
    (fetched : Option (List Row)) (fileNow : String) (tailMax : Nat)
    (renderOk : Bool) (st : SyncState) (chart : Option (List Row))
    (h : fetched = none ∨ fetched = some [] ∨ renderOk = false) :
    (drawChart animate fetched fileNow tailMax renderOk st chart).1 = st ∧
    (drawChart animate fetched fileNow tailMax renderOk st chart).2.1 =
      none := by
  cases fetched with
  | none => simp [drawChart]
  | some rows =>
    cases rows with
    | nil => simp [drawChart]
    | cons a t =>
      have hro : renderOk = false := by
        rcases h with h | h | h
        · cases h
        · cases h
        · exact h
      subst hro
      by_cases hce : canExtend animate chart st fileNow ((a :: t).map (·.ts)) = true
      · simp only [drawChart, List.isEmpty_cons, Bool.false_eq_true, if_false,
          hce, if_true]
        cases hidx : findIdxJS (fun ts => decide (st.lastTs.getD 0 < ts))
            ((a :: t).map (·.ts)) with
        | none => simp [rebuildResult]
        | some idx => simp
      · have hce' : canExtend animate chart st fileNow ((a :: t).map (·.ts)) =
            false := by simpa using hce
        rw [drawChart_noExtend_eq animate (a :: t) fileNow tailMax false st chart
          (by simp) hce']
        simp [rebuildResult]

/-- Witness for C4: a fetch that returns zero rows renders the placeholder
and leaves the sync state untouched. -/
theorem drawChart_failure_preserves_state_witness :
    (some ([] : List Row) = none ∨ some ([] : List Row) = some [] ∨
        (true : Bool) = false) ∧
    ((drawChart false (some ([] : List Row)) "a.csv" 500 true
        ⟨some 2, some "a.csv"⟩ (some [sampleRow 1])).1 =
      ⟨some 2, some "a.csv"⟩ ∧
    (drawChart false (some ([] : List Row)) "a.csv" 500 true
        ⟨some 2, some "a.csv"⟩ (some [sampleRow 1])).2.1 = none) :=
  ⟨Or.inr (Or.inl rfl),
   drawChart_failure_preserves_state false (some []) "a.csv" 500 true
     ⟨some 2, some "a.csv"⟩ (some [sampleRow 1])
     (Or.inr (Or.inl rfl))⟩

/-- C9 (code bug): no render-configuration change ever clears the Sync
State.  The legacy `bindChip` (`part_000` lines 105-111) performs no reset
at all, and the modular core's attempted reset (`app_core.js` lines
300-302 and 324-326) is a silent no-op against both chart-module
exposures (getter-only properties in `part_000` lines 1455-1456, absent
properties in `app_chart.js`), contrary to the code's own reset comment
and the spec.  Evaluated at the failing input: after a chip toggle /
checkbox change the sync variables are still set, and the very next draw
(unchanged source, new data arrived) takes the extend path instead of the
full rebuild the claim requires. -/
theorem config_change_reset_noop :
    bindChipCoreClick ⟨some 2, some "a.csv"⟩ =
      (⟨some 2, some "a.csv"⟩ : SyncState) ∧
    checkboxChangeCore ⟨some 2, some "a.csv"⟩ =
      (⟨some 2, some "a.csv"⟩ : SyncState) ∧
    bindChipLegacyClick ⟨some 2, some "a.csv"⟩ =
      (⟨some 2, some "a.csv"⟩ : SyncState) ∧
    (bindChipCoreClick ⟨some 2, some "a.csv"⟩).lastTs ≠ none ∧
    (bindChipCoreClick ⟨some 2, some "a.csv"⟩).currentFile ≠ none ∧
    (drawChart false (some sampleRows4) "a.csv" 500 true
        (bindChipCoreClick ⟨some 2, some "a.csv"⟩)
        (some [sampleRow 1, sampleRow 2])).2.2 = DrawOutcome.extended ∧
    (drawChart false (some sampleRows4) "a.csv" 500 true
        (checkboxChangeCore ⟨some 2, some "a.csv"⟩)
        (some [sampleRow 1, sampleRow 2])).2.2 = DrawOutcome.extended := by
  decide

theorem rsiVal_bounds (g l : ℚ) (hg : 0 ≤ g) (hl : 0 ≤ l) :
    0 ≤ rsiVal g l ∧ rsiVal g l ≤ 100 := by
  unfold rsiVal
  by_cases h : l = 0
  · rw [if_pos h]; norm_num
  · rw [if_neg h]
    have hl' : 0 < l := lt_of_le_of_ne hl (Ne.symm h)
    have hr : 0 ≤ g / l := div_nonneg hg hl'.le
    have h1 : (1 : ℚ) ≤ 1 + g / l := by linarith
    have hd1 : 100 / (1 + g / l) ≤ 100 := div_le_self (by norm_num) h1
    have hd0 : 0 < 100 / (1 + g / l) := div_pos (by norm_num) (by linarith)
    constructor <;> linarith

theorem rsiRest_bounds (period : Nat) (hp : 1 ≤ period) :
    ∀ (ds : List ℚ) (g l : ℚ), 0 ≤ g → 0 ≤ l →
      ∀ o ∈ rsiRest period g l ds, ∀ v, o = some v → 0 ≤ v ∧ v ≤ 100 := by
  intro ds
  induction ds with
  | nil => intro g l _ _ o ho; cases ho
  | cons ch rest ih =>
    intro g l hg hl o ho v hv
    have hpq : (0 : ℚ) ≤ (period : ℚ) - 1 := by
      have : (1 : ℚ) ≤ (period : ℚ) := by exact_mod_cast hp
      linarith
    have hppos : (0 : ℚ) < (period : ℚ) := by
      have : (1 : ℚ) ≤ (period : ℚ) := by exact_mod_cast hp
      linarith
    have hg' : 0 ≤ (g * ((period : ℚ) - 1) + max ch 0) / (period : ℚ) :=
      div_nonneg (add_nonneg (mul_nonneg hg hpq) (le_max_right ch 0)) hppos.le
    have hl' : 0 ≤ (l * ((period : ℚ) - 1) + max (-ch) 0) / (period : ℚ) :=
      div_nonneg (add_nonneg (mul_nonneg hl hpq) (le_max_right (-ch) 0)) hppos.le
    rw [rsiRest] at ho
    rcases List.mem_cons.mp ho with rfl | ho'
    · obtain rfl : rsiVal ((g * ((period : ℚ) - 1) + max ch 0) / (period : ℚ))
          ((l * ((period : ℚ) - 1) + max (-ch) 0) / (period : ℚ)) = v := by
        injection hv
      exact rsiVal_bounds _ _ hg' hl'
    · exact ih _ _ hg' hl' o ho' v hv

/-- C6: every defined output of the oscillator `rsi(prices, period)` lies in
`[0, 100]` for any non-empty price series and `period ≥ 1`; in particular
`avgLoss = 0` yields exactly `100`. -/
theorem rsi_bounded (prices : List ℚ) (period : Nat) (hp : 1 ≤ period)
    (_hne : prices ≠ []) :
    (∀ o ∈ rsi prices period, ∀ v, o = some v → 0 ≤ v ∧ v ≤ 100) ∧
    (∀ g : ℚ, rsiVal g 0 = 100) := by
  refine ⟨?_, fun g => by simp [rsiVal]⟩
  intro o ho v hv
  unfold rsi at ho
  by_cases hlen : prices.length < period + 1
  · rw [if_pos hlen] at ho
    obtain rfl := List.eq_of_mem_replicate ho
    cases hv
  · rw [if_neg hlen] at ho
    have hseedG : 0 ≤
        ((((deltas prices).take period).map (fun ch => max ch 0)).sum) /
          (period : ℚ) := by
      apply div_nonneg
      · apply List.sum_nonneg
        intro x hx
        obtain ⟨ch, -, rfl⟩ := List.mem_map.mp hx
        exact le_max_right ch 0
      · positivity
    have hseedL : 0 ≤
        ((((deltas prices).take period).map (fun ch => max (-ch) 0)).sum) /
          (period : ℚ) := by
      apply div_nonneg
      · apply List.sum_nonneg
        intro x hx
        obtain ⟨ch, -, rfl⟩ := List.mem_map.mp hx
        exact le_max_right (-ch) 0
      · positivity
    rcases List.mem_append.mp ho with hrep | hrest
    · obtain rfl := List.eq_of_mem_replicate hrep
      cases hv
    · rcases List.mem_cons.mp hrest with rfl | htail
      · obtain rfl : rsiVal _ _ = v := by injection hv
        exact rsiVal_bounds _ _ hseedG hseedL
      · exact rsiRest_bounds period hp _ _ _ hseedG hseedL o htail v hv

/-- Witness for C6 at the concrete series [10, 11, 9] with period 1. -/
theorem rsi_bounded_witness :
    (1 ≤ 1 ∧ ([(10 : ℚ), 11, 9] : List ℚ) ≠ []) ∧
    rsiVal (5 : ℚ) 0 = 100 :=
  ⟨⟨by decide, by decide⟩,
   (rsi_bounded [(10 : ℚ), 11, 9] 1 (by decide) (by decide)).2 5⟩

/-- C7 counterexample: the oscillator's first defined value appears at index
`period`, not `period + 1`: `rsi([10,11], 1)` is `[null, 100]`, so index
`1 ≤ period = 1` carries a defined value, contradicting "null at every
index ≤ period". -/
theorem rsi_defined_at_period_cex :
    (rsi [(10 : ℚ), 11] 1).get? 1 = some (some 100) ∧
    (rsi [(10 : ℚ), 11] 1).get? 1 ≠ some none := by
  have hmax1 : max (11 - 10 : ℚ) 0 = 1 := by
    rw [max_eq_left (by norm_num : (0 : ℚ) ≤ 11 - 10)]
    norm_num
  have hmax2 : max (-(11 - 10) : ℚ) 0 = 0 :=
    max_eq_right (by norm_num)
  have h : rsi [(10 : ℚ), 11] 1 = [none, some 100] := by
    unfold rsi
    rw [if_neg (by norm_num)]
    simp only [deltas, List.take, List.map, List.sum_cons, List.sum_nil,
      hmax1, hmax2, List.drop, rsiRest, List.replicate]
    norm_num [rsiVal]
  rw [h]
  refine ⟨rfl, by simp⟩

/-- C7 amended: `rsi(prices, period)` is null at every index `< period`
(i.e. `≤ period − 1`), the first defined value appears at index `period`
(whenever at least `period+1` prices exist), and the oscillator with
period 14 on a 2-point series is `[null, null]`. -/
theorem rsi_undefined_below_period (prices : List ℚ) (period i : Nat) :
    (i < period → i < prices.length →
      (rsi prices period).get? i = some none) ∧
    (period + 1 ≤ prices.length →
      ∃ v, (rsi prices period).get? period = some (some v)) ∧
    (∀ p1 p2 : ℚ, rsi [p1, p2] 14 = [none, none]) := by
  refine ⟨?_, ?_, fun p1 p2 => rfl⟩
  · intro hip hilen
    unfold rsi
    by_cases hlen : prices.length < period + 1
    · rw [if_pos hlen, List.get?_eq_getElem?, List.getElem?_replicate,
        if_pos hilen]
    · rw [if_neg hlen, List.get?_eq_getElem?, List.getElem?_append,
        if_pos (by simpa using hip), List.getElem?_replicate, if_pos hip]
  · intro hlen
    unfold rsi
    rw [if_neg (by omega)]
    refine ⟨rsiVal
        ((((((deltas prices).take period).map (fun ch => max ch 0)).sum) /
          (period : ℚ)))
        ((((deltas prices).take period).map (fun ch => max (-ch) 0)).sum /
          (period : ℚ)), ?_⟩
    rw [List.get?_eq_getElem?, List.getElem?_append_right (by simp)]
    simp

/-- Witness for the amended C7 at a concrete input. -/
theorem rsi_undefined_below_period_witness :
    ((1 < 2 ∧ 1 < ([(10 : ℚ), 11, 9] : List ℚ).length ∧
        2 + 1 ≤ ([(10 : ℚ), 11, 9] : List ℚ).length) ∧
      (rsi [(10 : ℚ), 11, 9] 2).get? 1 = some none) ∧
    ((∃ v, (rsi [(10 : ℚ), 11, 9] 2).get? 2 = some (some v)) ∧
      (∀ p1 p2 : ℚ, rsi [p1, p2] 14 = [none, none])) :=
  ⟨⟨⟨by decide, by decide, by decide⟩,
    (rsi_undefined_below_period [(10 : ℚ), 11, 9] 2 1).1 (by decide) (by decide)⟩,
   (rsi_undefined_below_period [(10 : ℚ), 11, 9] 2 1).2.1 (by decide),
   (rsi_undefined_below_period [(10 : ℚ), 11, 9] 2 1).2.2⟩

theorem foldl_min_mem (r : List ℚ) : ∀ x : ℚ, r.foldl min x ∈ x :: r := by
  induction r with
  | nil => intro x; simp
  | cons y r ih =>
    intro x
    have h := ih (min x y)
    show List.foldl min (min x y) r ∈ x :: y :: r
    rcases List.mem_cons.mp h with h' | h'
    · rw [h']
      rcases min_choice x y with hm | hm <;> rw [hm]
      · exact List.mem_cons_self _ _
      · exact List.mem_cons_of_mem _ (List.mem_cons_self _ _)
    · exact List.mem_cons_of_mem _ (List.mem_cons_of_mem _ h')

theorem jsMin_mem {l : List ℚ} {m : ℚ} (h : jsMin l = some m) : m ∈ l := by
  cases l with
  | nil => cases h
  | cons x r =>
    obtain rfl : r.foldl min x = m := by injection h
    exact foldl_min_mem r x

theorem jsMinD_pos (l : List ℚ) (h : ∀ x ∈ l, 0 < x) :
    0 < (match jsMin l with | some m => m | none => (1 : ℚ) / 1000000) := by
  cases hl : jsMin l with
  | none => norm_num
  | some m => simpa using h m (jsMin_mem hl)

/-- C8: under log scale the computed lower bound of the primary price-axis
range is strictly positive for every fetched window — including windows
with zero, negative, non-finite, or no strictly-positive prices — because
the raw minimum is clamped to 95% of the minimum strictly-positive OHLC
value (fallback `1e-6` when none exists). -/
theorem log_floor_pos (opL hiL loL clL : List (Option ℚ)) :
    0 < (yPriceRange opL hiL loL clL true).1 := by
  have hpos : ∀ x ∈ ((opL ++ hiL ++ loL ++ clL).filterMap id).filter
      (fun v => decide (0 < v)), 0 < x := by
    intro x hx
    simpa using (List.mem_filter.mp hx).2
  have hmin := jsMinD_pos _ hpos
  unfold yPriceRange
  simp only [if_true]
  apply mul_pos
  · exact lt_of_lt_of_le (mul_pos hmin (by norm_num)) (le_max_right _ _)
  · norm_num

theorem take_drop_window (all : List ℚ) (period i : Nat) (hp : period - 1 ≤ i) :
    (all.take (i + 1)).drop (i + 1 - period) =
      (all.drop (i + 1 - period)).take period := by
  rw [List.drop_take]
  congr 1
  omega

theorem window_sum_step (all : List ℚ) (period i : Nat) (hp : 1 ≤ period)
    (hi : i < all.length) :
    ((all.take (i + 1)).drop (i + 1 - period)).sum =
      (if period ≤ i
        then ((all.take i).drop (i - period)).sum + all.getD i 0 -
          all.getD (i - period) 0
        else ((all.take i).drop (i - period)).sum + all.getD i 0) := by
  have hgd : all.getD i 0 = all[i] := List.getD_eq_getElem all 0 hi
  have htake : all.take (i + 1) = all.take i ++ [all[i]] := by
    rw [List.take_succ, List.getElem?_eq_getElem hi]
    rfl
  by_cases hpi : period ≤ i
  · have hd : i + 1 - period ≤ (all.take i).length := by
      simp only [List.length_take]
      omega
    have hlt : i - period < (all.take i).length := by
      simp only [List.length_take]
      omega
    have hidx : i + 1 - period = i - period + 1 := by omega
    have hgd2 : all.getD (i - period) 0 = all[i - period] :=
      List.getD_eq_getElem all 0 (by omega)
    rw [if_pos hpi, htake, List.drop_append_of_le_length hd, List.sum_append,
      hidx, List.drop_eq_getElem_cons hlt, List.sum_cons, hgd, hgd2]
    simp only [List.getElem_take, List.sum_cons, List.sum_nil]
    ring
  · have h0 : i + 1 - period = 0 := by omega
    have h0' : i - period = 0 := by omega
    rw [htake, h0, h0', if_neg hpi, List.drop_zero, List.drop_zero,
      List.sum_append, hgd]
    simp

theorem smaGo_eq (all : List ℚ) (period : Nat) (hp : 2 ≤ period) :
    ∀ (rest : List ℚ) (i : Nat) (s : ℚ),
      all.drop i = rest →
      s = ((all.take i).drop (i - period)).sum →
      smaGo all period i s rest =
        (List.range' i rest.length).map (fun j =>
          if period - 1 ≤ j
          then some (((all.drop (j + 1 - period)).take period).sum /
            (period : ℚ))
          else none) := by
  intro rest
  induction rest with
  | nil => intro i s _ _; rfl
  | cons v rest ih =>
    intro i s hdrop hsum
    have hi : i < all.length := by
      by_contra hle
      push_neg at hle
      rw [List.drop_eq_nil_of_le hle] at hdrop
      cases hdrop
    have h2 := List.drop_eq_getElem_cons hi
    rw [hdrop] at h2
    injection h2 with h3 h4
    have hgd : all.getD i 0 = v := by
      rw [List.getD_eq_getElem all 0 hi, ← h3]
    have hs2 : (if period ≤ i then s + v - all.getD (i - period) 0
        else s + v) = ((all.take (i + 1)).drop (i + 1 - period)).sum := by
      rw [window_sum_step all period i (by omega) hi, hgd, hsum]
    rw [smaGo]
    have hlen : (v :: rest).length = rest.length + 1 := rfl
    rw [hlen, List.range'_succ, List.map_cons]
    congr 1
    · by_cases hpi1 : period - 1 ≤ i
      · rw [if_pos hpi1, if_pos hpi1, hs2,
          take_drop_window all period i hpi1]
      · rw [if_neg hpi1, if_neg hpi1]
    · exact ih (i + 1) _ (by rw [← h4]) hs2

theorem sma_eq_smaRef (values : List ℚ) (period : Nat) :
    sma values period = smaRef values period := by
  unfold sma smaRef
  by_cases hp : period ≤ 1
  · rw [if_pos hp, if_pos hp]
  · rw [if_neg hp, if_neg hp,
      smaGo_eq values period (by omega) values 0 0 (by simp) (by simp),
      List.range_eq_range']

/-- C5: the running-sum moving average agrees exactly with the naive
reference recomputation: for `period ≥ 2` it is null at every index
`i < period−1` and at `i ≥ period−1` equals the arithmetic mean of the
`period` most recent values (in exact rational arithmetic); for
`period ≤ 1` it returns the input series unchanged. -/
theorem sma_matches_reference (values : List ℚ) (period : Nat) :
    sma values period = smaRef values period ∧
    (period ≤ 1 → sma values period = values.map some) ∧
    (2 ≤ period → ∀ i, i < values.length →
      (sma values period).get? i =
        some (if period - 1 ≤ i
          then some (((values.drop (i + 1 - period)).take period).sum /
            (period : ℚ))
          else none)) := by
  refine ⟨sma_eq_smaRef values period, fun hp => by unfold sma; rw [if_pos hp], ?_⟩
  intro hp2 i hi
  rw [sma_eq_smaRef]
  unfold smaRef
  rw [if_neg (by omega), List.get?_eq_getElem?, List.getElem?_map,
    List.getElem?_range hi]
  rfl

/-- Witness for C5: sma([1,2,3,4,5], 3) at index 3 is the mean of [2,3,4]. -/
theorem sma_matches_reference_witness :
    (2 ≤ 3 ∧ 3 < ([(1 : ℚ), 2, 3, 4, 5] : List ℚ).length) ∧
    (sma [(1 : ℚ), 2, 3, 4, 5] 3).get? 3 =
      some (if 3 - 1 ≤ 3
        then some ((((([(1 : ℚ), 2, 3, 4, 5] : List ℚ).drop (3 + 1 - 3)).take
            3).sum) / ((3 : Nat) : ℚ))
        else none) :=
  ⟨⟨by decide, by decide⟩,
   (sma_matches_reference [(1 : ℚ), 2, 3, 4, 5] 3).2.2 (by decide) 3 (by decide)⟩

end Trade
